import Mathlib

/-!
# Verification of the HPACK header-field table (`cocaine12/tables.go`)

Shallow embedding of the header-field table used by the HPACK-style
header-compression codec: `HeaderField`, the combined static/dynamic
`headerFieldTable` with its two lookup indexes and eviction counter, and the
`addEntry` / `evictOldest` / `search` / `idToIndex` operations, translated
from `src/cocaine12/tables.go`.

Modelling conventions:

* Go strings are Lean `String`s; `len(s)` on a Go string counts bytes, so it
  is embedded as `String.utf8ByteSize`.
* Go maps with `uint64` values (`byName`, `byNameValue`) are embedded as total
  functions defaulting to `0`: a Go map lookup of an absent key yields the
  zero value `0`, and the code itself treats `0` as "absent" (`id != 0`
  guards, clearing by storing `0`).
* Go `panic` is modelled by returning `none` from an `Option`-valued
  function.
* The `uint64` counters (`evictCount`, unique ids) are embedded as `Nat`.
  They are exact below `2 ^ 64`, and the code documents that its id
  arithmetic never wraps in any reachable situation; the one place where the
  source explicitly tests for `uint64` wraparound — the `evictCount`
  overflow guard in `evictOldest` — is embedded with an explicit `% 2 ^ 64`
  so that the guard keeps its meaning. `HeaderField.Size` returns `uint32`
  and the source comment explicitly tolerates overflow there, so it carries
  an explicit `% 2 ^ 32`.
* `idToIndex` distinguishes the static table by a pointer comparison
  (`t != staticTable`); the embedding threads that distinction through an
  explicit `isStatic : Bool` argument on `idToIndex` and `search`.
-/

/-- A HeaderField is a name-value pair (`HeaderField` in the source; the Go
fields `Name`, `Value`, `Sensitive` become `name`, `value`, `sensitive`).
`sensitive` means that this header field should never be indexed. -/
structure HeaderField where
  name : String
  value : String
  sensitive : Bool
deriving DecidableEq, Repr

/-- `HeaderField.Size` per RFC 7541 section 4.1: name length + value length
+ 32, as Go `uint32` arithmetic (`uint32(len(hf.Name) + len(hf.Value) + 32)`
in the source; the source comment explicitly tolerates the overflow, hence
the explicit `% 2 ^ 32`). -/
def HeaderField.Size (hf : HeaderField) : Nat :=
  (hf.name.utf8ByteSize + hf.value.utf8ByteSize + 32) % 2 ^ 32

/-- `headerFieldTable` from the source: the ordered entries (`ents`, oldest
first), the count of entries ever evicted, and the two lookup indexes.
The Go key type `pairNameValue` is embedded as `String × String`. -/
structure headerFieldTable where
  ents : List HeaderField
  evictCount : Nat
  byName : String → Nat
  byNameValue : String × String → Nat

/-- `len` reports the number of entries in the table. -/
def headerFieldTable.len (t : headerFieldTable) : Nat :=
  t.ents.length

/-- A zero-valued `headerFieldTable` after `init()`: no entries, no
evictions, both maps empty (every lookup gives the zero value `0`). -/
def emptyTable : headerFieldTable :=
  { ents := [], evictCount := 0, byName := fun _ => 0, byNameValue := fun _ => 0 }

/-- `addEntry` adds a new entry: computes
`id := uint64(t.len()) + t.evictCount + 1`, unconditionally overwrites both
index entries for the new field's keys, and appends the field at the newest
position. -/
def headerFieldTable.addEntry (t : headerFieldTable) (f : HeaderField) : headerFieldTable :=
  let id := t.len + t.evictCount + 1
  { ents := t.ents ++ [f]
    evictCount := t.evictCount
    byName := fun x => if x = f.name then id else t.byName x
    byNameValue := fun p => if p = (f.name, f.value) then id else t.byNameValue p }

/-- The index-maintenance loop of `evictOldest`: for `k = 0, …, m-1`
(ascending, exactly as the Go `for` loop), take the entry `f := t.ents[k]`
with unique id `id := t.evictCount + uint64(k) + 1` and clear
`t.byName[f.Name]` (resp. `t.byNameValue[{f.Name, f.Value}]`) to `0` if it
still equals that id. `evictLoop t m` returns the pair of maps after the
first `m` iterations. -/
def evictLoop (t : headerFieldTable) : Nat → ((String → Nat) × (String × String → Nat))
  | 0 => (t.byName, t.byNameValue)
  | m + 1 =>
    let maps := evictLoop t m
    let f := t.ents.getD m ⟨"", "", false⟩
    let id := t.evictCount + m + 1
    ( if maps.1 f.name = id then fun x => if x = f.name then 0 else maps.1 x else maps.1,
      if maps.2 (f.name, f.value) = id then
        fun p => if p = (f.name, f.value) then 0 else maps.2 p
      else maps.2 )

/-- `evictOldest` evicts the `n` oldest entries. The parameter is Go `int`,
hence `Int` here. Panics (`none`) are produced, in source order, by:
the explicit guard `n > t.len()`; the slice expression `t.ents[n:]` when
`n < 0` (a Go slice-bounds panic — the preceding index-maintenance loop body
never runs for a negative `n`); and the explicit `evictCount` overflow guard
`t.evictCount + uint64(n) < t.evictCount`, whose `uint64` wraparound
comparison is embedded as `(t.evictCount + n) % 2 ^ 64 < t.evictCount`.
Otherwise the first `n` entries are dropped (`copy` + truncation in Go) and
`evictCount` grows by `n`. -/
def headerFieldTable.evictOldest (t : headerFieldTable) (n : Int) : Option headerFieldTable :=
  if (t.len : Int) < n then none
  else
    let maps := evictLoop t n.toNat
    if n < 0 then none
    else if (t.evictCount + n.toNat) % 2 ^ 64 < t.evictCount then none
    else some
      { ents := t.ents.drop n.toNat
        evictCount := t.evictCount + n.toNat
        byName := maps.1
        byNameValue := maps.2 }

/-- `idToIndex` converts a unique id to an HPACK index. Panics (`none`) when
`id <= t.evictCount`. Otherwise `k := id - t.evictCount - 1` is the storage
position `t.ents[k]`; a dynamic table (`t != staticTable` in the source,
`isStatic = false` here) answers `uint64(t.len()) - k`, the static table
answers `k + 1`. -/
def headerFieldTable.idToIndex (t : headerFieldTable) (isStatic : Bool) (id : Nat) :
    Option Nat :=
  if id ≤ t.evictCount then none
  else
    let k := id - t.evictCount - 1
    if isStatic = false then some (t.len - k)
    else some (k + 1)

/-- `search` finds `f` in the table. Unless `f` itself is sensitive, the
name+value index is probed first (a hit yields the converted index and
`nameValueMatch = true`); then the name index (a hit yields the index and
`false`); otherwise `(0, false)`. A panic inside `idToIndex` propagates
(`Option.map` of `none`). -/
def headerFieldTable.search (t : headerFieldTable) (isStatic : Bool) (f : HeaderField) :
    Option (Nat × Bool) :=
  if f.sensitive = false ∧ t.byNameValue (f.name, f.value) ≠ 0 then
    (t.idToIndex isStatic (t.byNameValue (f.name, f.value))).map fun i => (i, true)
  else if t.byName f.name ≠ 0 then
    (t.idToIndex isStatic (t.byName f.name)).map fun i => (i, false)
  else some (0, false)

/-- `pair` from the source: a non-sensitive name/value pair. -/
def pair (name value : String) : HeaderField :=
  { name := name, value := value, sensitive := false }

/-- The exact ordered contents of `newStaticTable` in the source: the 61
standard HPACK pairs, padding, ten empty pairs, and the three
Cocaine-specific headers. -/
def staticTableList : List HeaderField :=
  [ pair ":authority" ""
  , pair ":method" "GET"
  , pair ":method" "POST"
  , pair ":path" "/"
  , pair ":path" "/index.html"
  , pair ":scheme" "http"
  , pair ":scheme" "https"
  , pair ":status" "200"
  , pair ":status" "204"
  , pair ":status" "206"
  , pair ":status" "304"
  , pair ":status" "400"
  , pair ":status" "404"
  , pair ":status" "500"
  , pair "accept-charset" ""
  , pair "accept-encoding" "gzip, deflate"
  , pair "accept-language" ""
  , pair "accept-ranges" ""
  , pair "accept" ""
  , pair "access-control-allow-origin" ""
  , pair "age" ""
  , pair "allow" ""
  , pair "authorization" ""
  , pair "cache-control" ""
  , pair "content-disposition" ""
  , pair "content-encoding" ""
  , pair "content-language" ""
  , pair "content-length" ""
  , pair "content-location" ""
  , pair "content-range" ""
  , pair "content-type" ""
  , pair "cookie" ""
  , pair "date" ""
  , pair "etag" ""
  , pair "expect" ""
  , pair "expires" ""
  , pair "from" ""
  , pair "host" ""
  , pair "if-match" ""
  , pair "if-modified-since" ""
  , pair "if-none-match" ""
  , pair "if-range" ""
  , pair "if-unmodified-since" ""
  , pair "last-modified" ""
  , pair "link" ""
  , pair "location" ""
  , pair "max-forwards" ""
  , pair "proxy-authenticate" ""
  , pair "proxy-authorization" ""
  , pair "range" ""
  , pair "referer" ""
  , pair "refresh" ""
  , pair "retry-after" ""
  , pair "server" ""
  , pair "set-cookie" ""
  , pair "strict-transport-security" ""
  , pair "transfer-encoding" ""
  , pair "user-agent" ""
  , pair "vary" ""
  , pair "via" ""
  , pair "www-authenticate" ""
  , pair "" ""
  , pair "" ""
  , pair "" ""
  , pair "" ""
  , pair "" ""
  , pair "" ""
  , pair "" ""
  , pair "" ""
  , pair "" ""
  , pair "" ""
  , pair "trace_id" ""
  , pair "span_id" ""
  , pair "parent_id" "" ]

/-- `newStaticTable`: the process-wide static table, built by `addEntry`-ing
the fixed pairs in order into a fresh table. -/
def newStaticTable : headerFieldTable :=
  staticTableList.foldl (fun t f => t.addEntry f) emptyTable

/-- The global `staticTable` value. -/
def staticTable : headerFieldTable :=
  newStaticTable

/-- The dynamic table of the round-trip scenario: the pairs
`("k1","v1"), ("k2","v2"), ("k1","v3")` inserted in order into an empty
dynamic table. -/
def roundTripTable : headerFieldTable :=
  ((emptyTable.addEntry (pair "k1" "v1")).addEntry (pair "k2" "v2")).addEntry
    (pair "k1" "v3")

/-- A dynamic table holding three entries with distinct names inserted in
order A, B, C (none evicted). -/
def abcTable : headerFieldTable :=
  ((emptyTable.addEntry (pair "nA" "vA")).addEntry (pair "nB" "vB")).addEntry
    (pair "nC" "vC")

/-- A dynamic table with a single entry, used to instantiate theorems with
hypotheses at a concrete input. -/
def oneEntryTable : headerFieldTable :=
  emptyTable.addEntry (pair "a" "b")

/-- A hand-constructed table state whose eviction counter sits at the top of
the `uint64` range, so that the next eviction trips the source's explicit
`evictCount` overflow guard. -/
def overflowTable : headerFieldTable :=
  { ents := [pair "a" "b"]
    evictCount := 2 ^ 64 - 1
    byName := fun _ => 0
    byNameValue := fun _ => 0 }

/-- The trace of unique ids assigned by a sequence of `addEntry` calls: each
element is the `id = t.len() + t.evictCount + 1` that `addEntry` computes in
the state in which the corresponding insertion runs. -/
def assignedIds : headerFieldTable → List HeaderField → List Nat
  | _, [] => []
  | t, f :: fs => (t.len + t.evictCount + 1) :: assignedIds (t.addEntry f) fs

/-- A dynamic table with two entries sharing the name `"x"`, used to
instantiate theorems with hypotheses at a concrete input. -/
def twoSameNameTable : headerFieldTable :=
  (emptyTable.addEntry (pair "x" "1")).addEntry (pair "x" "2")

/-- Specification-side characterization of what the lookup maps hold: the
unique id of the newest entry satisfying `p` among entries stored from
unique id `base + 1` upwards (the entry at position `k` of a table has
unique id `evictCount + k + 1`), or `0` when no entry satisfies `p`. -/
def newestIdAux (base : Nat) (p : HeaderField → Bool) : List HeaderField → Nat
  | [] => 0
  | f :: rest =>
    let r := newestIdAux (base + 1) p rest
    if r ≠ 0 then r else if p f then base + 1 else 0

/-- The index-maintenance loop of `evictOldest`, generalized over the key a
lookup map is indexed by (`f.Name` for `byName`, the name/value pair for
`byNameValue`): iteration `k` conditionally clears the map entry of the
evicted entry's key when it still holds that entry's own unique id
`ec + k + 1`. Both components of `evictLoop` are instances of this. -/
def clearLoop {κ : Type} [DecidableEq κ] (key : HeaderField → κ)
    (ents : List HeaderField) (ec : Nat) (map0 : κ → Nat) : Nat → κ → Nat
  | 0 => map0
  | m + 1 =>
    let mp := clearLoop key ents ec map0 m
    let g := ents.getD m ⟨"", "", false⟩
    if mp (key g) = ec + m + 1 then fun y => if y = key g then 0 else mp y else mp

/-- The lookup maps are canonical: `byName` maps every name to the unique id
of the newest entry currently holding that name (`0` when there is none),
and `byNameValue` does the same for name/value pairs. -/
def canonicalMaps (t : headerFieldTable) : Prop :=
  (∀ x : String,
    t.byName x = newestIdAux t.evictCount (fun f => decide (f.name = x)) t.ents) ∧
  (∀ pr : String × String,
    t.byNameValue pr =
      newestIdAux t.evictCount (fun f => decide ((f.name, f.value) = pr)) t.ents)

/-- Table states reachable from a freshly initialized dynamic table by
`addEntry` calls and successful (non-panicking) `evictOldest` calls. -/
inductive Reachable : headerFieldTable → Prop
  | base : Reachable emptyTable
  | add (t : headerFieldTable) (f : HeaderField) :
      Reachable t → Reachable (t.addEntry f)
  | evict (t t' : headerFieldTable) (n : Int) :
      Reachable t → t.evictOldest n = some t' → Reachable t'

theorem addEntry_len (t : headerFieldTable) (f : HeaderField) :
    (t.addEntry f).len = t.len + 1 := by
  simp [headerFieldTable.addEntry, headerFieldTable.len]

theorem addEntry_evictCount (t : headerFieldTable) (f : HeaderField) :
    (t.addEntry f).evictCount = t.evictCount := rfl

theorem idToIndex_dyn (t : headerFieldTable) (id : Nat) (h : t.evictCount < id) :
    t.idToIndex false id = some (t.len - (id - t.evictCount - 1)) := by
  unfold headerFieldTable.idToIndex
  rw [if_neg (by omega)]
  rfl

theorem assignedIds_eq_range' (fs : List HeaderField) :
    ∀ t : headerFieldTable,
      assignedIds t fs = List.range' (t.len + t.evictCount + 1) fs.length := by
  induction fs with
  | nil => intro t; rfl
  | cons f fs ih =>
    intro t
    show (t.len + t.evictCount + 1) :: assignedIds (t.addEntry f) fs = _
    rw [ih, addEntry_len, addEntry_evictCount, List.length_cons, List.range'_succ]
    congr 2
    omega

/-- Claim C1 (counterexample): a `HeaderField` with `sensitive = true`, name
`"auth"`, value `"secret"` inserted via `addEntry` into an empty dynamic
table IS found by a subsequent `search` for
`{name := "auth", value := "secret", sensitive := false}` with an exact
match (`exact = true`) at index 1 — `addEntry` adds every field, sensitive
or not, to the name+value index. -/
theorem C1_counterexample :
    (emptyTable.addEntry ⟨"auth", "secret", true⟩).search false
      ⟨"auth", "secret", false⟩ = some (1, true) := by
  decide

/-- Claim C1 (amended): sensitivity is checked only on the field being
searched for, never on insertion. After `addEntry f` (for any `f`, sensitive
or not), a non-sensitive search for `f`'s name/value pair returns an exact
match at index 1, while a search whose own field is sensitive skips the
name+value probe and returns a name-only match at index 1. -/
theorem C1_amended (t : headerFieldTable) (f : HeaderField) :
    (t.addEntry f).search false ⟨f.name, f.value, false⟩ = some (1, true) ∧
    (t.addEntry f).search false ⟨f.name, f.value, true⟩ = some (1, false) := by
  have hnv : (t.addEntry f).byNameValue (f.name, f.value) = t.len + t.evictCount + 1 := by
    simp [headerFieldTable.addEntry, headerFieldTable.len]
  have hn : (t.addEntry f).byName f.name = t.len + t.evictCount + 1 := by
    simp [headerFieldTable.addEntry, headerFieldTable.len]
  have hec : (t.addEntry f).evictCount = t.evictCount := rfl
  have hlt : (t.addEntry f).evictCount < t.len + t.evictCount + 1 := by rw [hec]; omega
  have harith : t.len + 1 - (t.len + t.evictCount + 1 - t.evictCount - 1) = 1 := by omega
  constructor
  · simp only [headerFieldTable.search, hnv, eq_self_iff_true, true_and, ne_eq]
    rw [if_pos (show ¬t.len + t.evictCount + 1 = 0 by omega),
      idToIndex_dyn _ _ hlt, hec, addEntry_len, harith]
    rfl
  · simp only [headerFieldTable.search, hn, ne_eq]
    rw [if_neg (by simp), if_pos (show ¬t.len + t.evictCount + 1 = 0 by omega),
      idToIndex_dyn _ _ hlt, hec, addEntry_len, harith]
    rfl

/-- Claim C2 (counterexample): in the round-trip scenario, searching for
`("k1","v1")` returns an exact match (`exact = true`) at index 3, not the
claimed name-only match (`exact = false`): inserting `("k1","v3")`
overwrites only `byName["k1"]` and `byNameValue[("k1","v3")]`, so the pair
`("k1","v1")` is still present in the name+value index. -/
theorem C2_counterexample :
    roundTripTable.search false (pair "k1" "v1") = some (3, true) ∧
    roundTripTable.search false (pair "k1" "v1") ≠ some (3, false) := by
  exact ⟨by decide, by decide⟩

/-- Claim C2 (amended): after inserting `("k1","v1"), ("k2","v2"),
("k1","v3")` into an empty dynamic table, `search(("k1","v3"))` returns an
exact match at index 1 and `search(("k1","v1"))` returns an exact match
(`exact = true`) at index 3 — the index of the original `("k1","v1")` entry
itself, which is still in the table and still in the name+value index. -/
theorem C2_amended :
    roundTripTable.search false (pair "k1" "v3") = some (1, true) ∧
    roundTripTable.search false (pair "k1" "v1") = some (3, true) := by
  exact ⟨by decide, by decide⟩

/-- Claim C3: `idToIndex` converts a live unique id (`id > evictCount`) to
`(id - evictCount - 1) + 1` for the static table and to
`len(entries) - (id - evictCount - 1)` for a dynamic table, and in a dynamic
table holding A, B, C inserted in that order, C resolves to index 1 and A to
index 3. -/
theorem C3_idToIndex (t : headerFieldTable) (isStatic : Bool) (id : Nat)
    (h : t.evictCount < id) :
    t.idToIndex isStatic id =
      some (if isStatic then (id - t.evictCount - 1) + 1
        else t.len - (id - t.evictCount - 1)) ∧
    abcTable.search false (pair "nC" "vC") = some (1, true) ∧
    abcTable.search false (pair "nA" "vA") = some (3, true) := by
  refine ⟨?_, by decide, by decide⟩
  unfold headerFieldTable.idToIndex
  rw [if_neg (by omega)]
  cases isStatic <;> simp

/-- Witness for C3 at a concrete input: the single entry of `oneEntryTable`
has id 1 and `1 > evictCount = 0`. -/
theorem C3_idToIndex_witness :
    oneEntryTable.idToIndex false 1 =
      some (if false then (1 - oneEntryTable.evictCount - 1) + 1
        else oneEntryTable.len - (1 - oneEntryTable.evictCount - 1)) ∧
    abcTable.search false (pair "nC" "vC") = some (1, true) ∧
    abcTable.search false (pair "nA" "vA") = some (3, true) :=
  C3_idToIndex oneEntryTable false 1 (by decide)

/-- Claim C4 (counterexample): `overflowTable` has `evictCount = 2^64 - 1`
and one entry, so `n = 1 ≤ len(entries)`, yet `evictOldest 1` panics on the
`evictCount` overflow guard instead of producing the post-eviction state the
claim describes. -/
theorem C4_counterexample :
    overflowTable.evictOldest 1 = none ∧ 1 ≤ overflowTable.len := by
  exact ⟨rfl, by decide⟩

/-- Claim C4 (amended): for every table state and every `n ≤ len(entries)`
such that the `evictCount` overflow guard does not fire, `evictOldest n`
completes; the resulting entry sequence is the old one with its first `n`
elements removed, and `evictCount` grows by exactly `n`. -/
theorem C4_amended (t : headerFieldTable) (n : Nat) (hlen : n ≤ t.len)
    (hovf : ¬(t.evictCount + n) % 2 ^ 64 < t.evictCount) :
    (t.evictOldest (n : Int)).map headerFieldTable.ents = some (t.ents.drop n) ∧
    (t.evictOldest (n : Int)).map headerFieldTable.evictCount
      = some (t.evictCount + n) := by
  have hres : t.evictOldest (n : Int) = some
      { ents := t.ents.drop n
        evictCount := t.evictCount + n
        byName := (evictLoop t n).1
        byNameValue := (evictLoop t n).2 } := by
    simp only [headerFieldTable.evictOldest, Int.toNat_natCast]
    split_ifs with h1 h2
    · omega
    · omega
    · rfl
  rw [hres]
  exact ⟨rfl, rfl⟩

/-- Witness for C4 at a concrete input: evicting the single entry of
`oneEntryTable`. -/
theorem C4_amended_witness :
    (oneEntryTable.evictOldest ((1 : Nat) : Int)).map headerFieldTable.ents
      = some (oneEntryTable.ents.drop 1) ∧
    (oneEntryTable.evictOldest ((1 : Nat) : Int)).map headerFieldTable.evictCount
      = some (oneEntryTable.evictCount + 1) :=
  C4_amended oneEntryTable 1 (by decide) (by decide)

/-- Claim C6: successive insertions assign the ids
`len + evictCount + 1, len + evictCount + 2, …` — a gap-free, strictly
increasing run of unique ids, each being the value
`(length of entries before the append) + evictCount + 1` that `addEntry`
computes. -/
theorem C6_monotonic_ids (t : headerFieldTable) (fs : List HeaderField) :
    assignedIds t fs = List.range' (t.len + t.evictCount + 1) fs.length ∧
    (assignedIds t fs).Pairwise (fun a b => a < b) := by
  refine ⟨assignedIds_eq_range' fs t, ?_⟩
  rw [assignedIds_eq_range' fs t]
  exact List.pairwise_lt_range' _ _ 1 (by norm_num)

/-- Claim C7 (counterexample): `evictOldest` also panics for a negative
argument (its Go parameter is a signed `int`, and `t.ents[n:]` faults), so
"panics if and only if `n > len(entries)`" fails at `n = -1` on the empty
table: it panics although `-1 > len(entries)` is false. -/
theorem C7_counterexample :
    emptyTable.evictOldest (-1) = none ∧ ¬((emptyTable.len : Int) < -1) := by
  exact ⟨rfl, by decide⟩

/-- Claim C7 (amended): `evictOldest n` panics exactly when `n > len(entries)`,
or `n < 0` (Go slice-bounds fault at `ents[n:]`), or the `evictCount`
increment would wrap around `2^64` (the overflow guard panics instead of
silently wrapping); `idToIndex id` panics exactly when `id ≤ evictCount`. -/
theorem C7_panic_conditions (t : headerFieldTable) (n : Int) (isStatic : Bool)
    (id : Nat) :
    (t.evictOldest n = none ↔
      ((t.len : Int) < n ∨ n < 0 ∨
        (t.evictCount + n.toNat) % 2 ^ 64 < t.evictCount)) ∧
    (t.idToIndex isStatic id = none ↔ id ≤ t.evictCount) := by
  constructor
  · simp only [headerFieldTable.evictOldest]
    split_ifs with h1 h2 h3
    · exact iff_of_true rfl (Or.inl h1)
    · exact iff_of_true rfl (Or.inr (Or.inl h2))
    · exact iff_of_true rfl (Or.inr (Or.inr h3))
    · refine iff_of_false (by simp) ?_
      rintro (h | h | h)
      · exact h1 h
      · exact h2 h
      · exact h3 h
  · simp only [headerFieldTable.idToIndex]
    split_ifs with h1 h2
    · exact iff_of_true rfl h1
    · exact iff_of_false (by simp) h1
    · exact iff_of_false (by simp) h1

/-- Claim C8: `Size` is the pure function
`(len(name) + len(value) + 32) mod 2^32`: overflow on pathological
hand-built fields is reduced modulo `2^32`, and whenever the sum fits in a
`uint32` the result is exactly `len(name) + len(value) + 32`. -/
theorem C8_size_law (f : HeaderField) :
    f.Size = (f.name.utf8ByteSize + f.value.utf8ByteSize + 32) % 2 ^ 32 ∧
    (f.name.utf8ByteSize + f.value.utf8ByteSize + 32 < 2 ^ 32 →
      f.Size = f.name.utf8ByteSize + f.value.utf8ByteSize + 32) :=
  ⟨rfl, fun h => by
    show (f.name.utf8ByteSize + f.value.utf8ByteSize + 32) % 2 ^ 32 = _
    exact Nat.mod_eq_of_lt h⟩

/-- Witness for C8 at a concrete input with the no-overflow side condition
discharged. -/
theorem C8_size_law_witness :
    HeaderField.Size ⟨"ab", "c", false⟩ = 35 ∧ (2 + 1 + 32 : Nat) < 2 ^ 32 := by
  refine ⟨?_, by decide⟩
  rw [(C8_size_law ⟨"ab", "c", false⟩).2 (by decide)]
  decide

/-- Claim C10 (counterexample): a name+value search for the empty pair on
the static table returns index 71 — the id of the newest of the ten empty
padding entries (they occupy ids 62–71, there being 61 standard entries
before them, not 69 as the source comments miscount) — not index 70. -/
theorem C10_counterexample :
    staticTable.search true (pair "" "") = some (71, true) ∧
    staticTable.search true (pair "" "") ≠ some (70, true) := by
  exact ⟨by decide, by decide⟩

/-- Claim C10 (amended): on the static table a name-only search resolves to
the last-inserted entry with that name: `{":method", "PUT"}` returns
`(3, false)` (the `:method`/`POST` slot, not index 2), and the empty pair
returns an exact match at index 71, the last of the empty padding
entries. -/
theorem C10_amended :
    staticTable.search true (pair ":method" "PUT") = some (3, false) ∧
    staticTable.search true (pair ":method" "PUT") ≠ some (2, false) ∧
    staticTable.search true (pair "" "") = some (71, true) := by
  exact ⟨by decide, by decide, by decide⟩

theorem search_nameValue (t : headerFieldTable) (s : Bool) (f : HeaderField)
    (h1 : f.sensitive = false) (h2 : t.byNameValue (f.name, f.value) ≠ 0) :
    t.search s f =
      (t.idToIndex s (t.byNameValue (f.name, f.value))).map fun i => (i, true) := by
  unfold headerFieldTable.search
  rw [if_pos ⟨h1, h2⟩]

theorem search_nameOnly (t : headerFieldTable) (s : Bool) (f : HeaderField)
    (h1 : ¬(f.sensitive = false ∧ t.byNameValue (f.name, f.value) ≠ 0))
    (h2 : t.byName f.name ≠ 0) :
    t.search s f = (t.idToIndex s (t.byName f.name)).map fun i => (i, false) := by
  unfold headerFieldTable.search
  rw [if_neg h1, if_pos h2]

theorem search_none (t : headerFieldTable) (s : Bool) (f : HeaderField)
    (h1 : ¬(f.sensitive = false ∧ t.byNameValue (f.name, f.value) ≠ 0))
    (h2 : ¬t.byName f.name ≠ 0) :
    t.search s f = some (0, false) := by
  unfold headerFieldTable.search
  rw [if_neg h1, if_neg h2]

theorem newestIdAux_cons (base : Nat) (p : HeaderField → Bool) (f : HeaderField)
    (rest : List HeaderField) :
    newestIdAux base p (f :: rest) =
      (if newestIdAux (base + 1) p rest ≠ 0 then newestIdAux (base + 1) p rest
       else if p f = true then base + 1 else 0) := rfl

theorem newestIdAux_eq_zero (p : HeaderField → Bool) :
    ∀ (l : List HeaderField) (base : Nat), (∀ g ∈ l, p g = false) →
      newestIdAux base p l = 0 := by
  intro l
  induction l with
  | nil => intro base _; rfl
  | cons f rest ih =>
    intro base h
    have hr : newestIdAux (base + 1) p rest = 0 :=
      ih (base + 1) (fun g hg => h g (List.mem_cons_of_mem f hg))
    have hf : p f = false := h f (List.mem_cons_self f rest)
    rw [newestIdAux_cons, hr, if_neg (by simp), hf]
    rfl

theorem newestIdAux_spec (p : HeaderField → Bool) :
    ∀ (l : List HeaderField) (base : Nat), newestIdAux base p l ≠ 0 →
      ∃ k, k < l.length ∧ newestIdAux base p l = base + k + 1 ∧
        p (l.getD k ⟨"", "", false⟩) = true := by
  intro l
  induction l with
  | nil => intro base h; exact absurd rfl h
  | cons f rest ih =>
    intro base h
    by_cases hr : newestIdAux (base + 1) p rest = 0
    · by_cases hp : p f = true
      · refine ⟨0, by simp, ?_, by simpa using hp⟩
        rw [newestIdAux_cons, hr, if_neg (by simp), if_pos hp]
      · exfalso
        apply h
        rw [newestIdAux_cons, hr, if_neg (by simp), if_neg hp]
    · obtain ⟨k, hk, hval, hp⟩ := ih base.succ hr
      refine ⟨k + 1, by simpa using hk, ?_, by simpa using hp⟩
      rw [newestIdAux_cons, if_pos hr]
      rw [show base.succ = base + 1 from rfl] at hval
      omega

theorem newestIdAux_point (base : Nat) (p : HeaderField → Bool) (l : List HeaderField)
    (m : Nat) (h : newestIdAux base p l = base + m + 1) :
    m < l.length ∧ p (l.getD m ⟨"", "", false⟩) = true := by
  have hne : newestIdAux base p l ≠ 0 := by omega
  obtain ⟨k, hk, hval, hp⟩ := newestIdAux_spec p l base hne
  have hkm : k = m := by omega
  subst hkm
  exact ⟨hk, hp⟩

theorem newestIdAux_eq_of (p : HeaderField → Bool) :
    ∀ (l : List HeaderField) (base k : Nat), k < l.length →
      p (l.getD k ⟨"", "", false⟩) = true →
      (∀ g ∈ l.drop (k + 1), p g = false) →
      newestIdAux base p l = base + k + 1 := by
  intro l
  induction l with
  | nil => intro base k hk _ _; exact absurd hk (by simp)
  | cons f rest ih =>
    intro base k hk hp hdrop
    cases k with
    | zero =>
      have hr : newestIdAux (base + 1) p rest = 0 :=
        newestIdAux_eq_zero p rest (base + 1) (by simpa using hdrop)
      rw [newestIdAux_cons, hr, if_neg (by simp), if_pos (by simpa using hp)]
    | succ k =>
      have hval : newestIdAux (base + 1) p rest = base + 1 + k + 1 :=
        ih (base + 1) k (by simpa using hk) (by simpa using hp) (by simpa using hdrop)
      rw [newestIdAux_cons, if_pos (by omega), hval]
      omega

theorem newestIdAux_bounds (p : HeaderField → Bool) :
    ∀ (l : List HeaderField) (base : Nat),
      newestIdAux base p l = 0 ∨
        (base < newestIdAux base p l ∧ newestIdAux base p l ≤ base + l.length) := by
  intro l
  induction l with
  | nil => intro base; exact Or.inl rfl
  | cons f rest ih =>
    intro base
    rw [newestIdAux_cons]
    rcases ih (base + 1) with h0 | hb
    · rw [h0, if_neg (by simp)]
      by_cases hp : p f = true
      · rw [if_pos hp]
        refine Or.inr ⟨by omega, ?_⟩
        simp
      · rw [if_neg hp]
        exact Or.inl rfl
    · rw [if_pos (by omega)]
      refine Or.inr ⟨by omega, ?_⟩
      have h2 := hb.2
      simp only [List.length_cons]
      omega

theorem newestIdAux_snoc (p : HeaderField → Bool) :
    ∀ (l : List HeaderField) (base : Nat) (f : HeaderField),
      newestIdAux base p (l ++ [f]) =
        if p f = true then base + l.length + 1 else newestIdAux base p l := by
  intro l
  induction l with
  | nil =>
    intro base f
    by_cases hp : p f = true
    · rw [if_pos hp]
      show (if newestIdAux (base + 1) p [] ≠ 0 then newestIdAux (base + 1) p []
        else if p f = true then base + 1 else 0) = base + 0 + 1
      rw [if_neg (by simp [newestIdAux]), if_pos hp]
    · rw [if_neg hp]
      show (if newestIdAux (base + 1) p [] ≠ 0 then newestIdAux (base + 1) p []
        else if p f = true then base + 1 else 0) = newestIdAux base p []
      rw [if_neg (by simp [newestIdAux]), if_neg hp]
      rfl
  | cons g rest ih =>
    intro base f
    show (if newestIdAux (base + 1) p (rest ++ [f]) ≠ 0 then newestIdAux (base + 1) p (rest ++ [f])
      else if p g = true then base + 1 else 0) = _
    rw [ih (base + 1) f]
    by_cases hp : p f = true
    · rw [if_pos hp, if_pos hp, if_pos (show base + 1 + rest.length + 1 ≠ 0 by omega)]
      simp only [List.length_cons]
      omega
    · rw [if_neg hp, if_neg hp]
      rfl

theorem newestIdAux_drop (p : HeaderField → Bool) :
    ∀ (m : Nat) (l : List HeaderField) (base : Nat), m ≤ l.length →
      newestIdAux (base + m) p (l.drop m) =
        if newestIdAux base p l ≤ base + m then 0 else newestIdAux base p l := by
  intro m
  induction m with
  | zero =>
    intro l base _
    simp only [Nat.add_zero, List.drop_zero]
    rcases newestIdAux_bounds p l base with h0 | hb
    · rw [h0, if_pos (by omega)]
    · rw [if_neg (by omega)]
  | succ m ih =>
    intro l base hm
    cases l with
    | nil => simp at hm
    | cons f rest =>
      have hm' : m ≤ rest.length := by simpa using hm
      have hdropstep : (f :: rest).drop (m + 1) = rest.drop m := rfl
      rw [hdropstep, show base + (m + 1) = base + 1 + m by omega,
        ih rest (base + 1) hm', newestIdAux_cons]
      by_cases hr : newestIdAux (base + 1) p rest ≠ 0
      · rw [if_pos hr]
      · have hr0 : newestIdAux (base + 1) p rest = 0 := not_not.mp hr
        rw [if_neg hr, hr0]
        split_ifs <;> omega

theorem clearLoop_eq {κ : Type} [DecidableEq κ] (key : HeaderField → κ)
    (ents : List HeaderField) (ec : Nat) (map0 : κ → Nat)
    (hcan : ∀ y : κ, map0 y = newestIdAux ec (fun f => decide (key f = y)) ents) :
    ∀ m, m ≤ ents.length → ∀ y : κ,
      clearLoop key ents ec map0 m y =
        if newestIdAux ec (fun f => decide (key f = y)) ents ≤ ec + m then 0
        else newestIdAux ec (fun f => decide (key f = y)) ents := by
  intro m
  induction m with
  | zero =>
    intro _ y
    show map0 y = _
    rw [hcan y]
    rcases newestIdAux_bounds (fun f => decide (key f = y)) ents ec with h0 | hb
    · rw [h0, if_pos (by omega)]
    · rw [if_neg (by omega)]
  | succ m ih =>
    intro hm y
    have hm' : m ≤ ents.length := by omega
    have hpoint : ∀ z : κ,
        newestIdAux ec (fun f => decide (key f = z)) ents = ec + m + 1 →
        key (ents.getD m ⟨"", "", false⟩) = z := by
      intro z hz
      exact of_decide_eq_true (newestIdAux_point ec (fun f => decide (key f = z)) ents m hz).2
    have hstep : clearLoop key ents ec map0 (m + 1) y =
        (if clearLoop key ents ec map0 m (key (ents.getD m ⟨"", "", false⟩)) = ec + m + 1
         then (fun z => if z = key (ents.getD m ⟨"", "", false⟩) then 0
           else clearLoop key ents ec map0 m z)
         else clearLoop key ents ec map0 m) y := rfl
    rw [hstep]
    by_cases hc : clearLoop key ents ec map0 m (key (ents.getD m ⟨"", "", false⟩))
        = ec + m + 1
    · rw [if_pos hc]
      have hgm : newestIdAux ec
          (fun f => decide (key f = key (ents.getD m ⟨"", "", false⟩))) ents
          = ec + m + 1 := by
        rw [ih hm' (key (ents.getD m ⟨"", "", false⟩))] at hc
        by_cases hle : newestIdAux ec
            (fun f => decide (key f = key (ents.getD m ⟨"", "", false⟩))) ents ≤ ec + m
        · rw [if_pos hle] at hc
          omega
        · rw [if_neg hle] at hc
          exact hc
      by_cases hy : y = key (ents.getD m ⟨"", "", false⟩)
      · subst hy
        rw [if_pos rfl, if_pos (by omega)]
      · rw [if_neg hy, ih hm' y]
        by_cases h1 : newestIdAux ec (fun f => decide (key f = y)) ents ≤ ec + m
        · rw [if_pos h1, if_pos (by omega)]
        · have h2 : newestIdAux ec (fun f => decide (key f = y)) ents ≠ ec + m + 1 :=
            fun hcon => hy (hpoint y hcon).symm
          rw [if_neg h1, if_neg (by omega)]
    · rw [if_neg hc, ih hm' y]
      by_cases h1 : newestIdAux ec (fun f => decide (key f = y)) ents ≤ ec + m
      · rw [if_pos h1, if_pos (by omega)]
      · have h2 : newestIdAux ec (fun f => decide (key f = y)) ents ≠ ec + m + 1 := by
          intro hcon
          apply hc
          rw [ih hm' (key (ents.getD m ⟨"", "", false⟩)), hpoint y hcon]
          rw [if_neg (by omega)]
          exact hcon
        rw [if_neg h1, if_neg (by omega)]

theorem evictLoop_fst_eq_clearLoop (t : headerFieldTable) :
    ∀ m : Nat, (evictLoop t m).1 =
      clearLoop (fun f => f.name) t.ents t.evictCount t.byName m := by
  intro m
  induction m with
  | zero => rfl
  | succ m ih =>
    show (if (evictLoop t m).1 (t.ents.getD m ⟨"", "", false⟩).name = t.evictCount + m + 1
        then fun x => if x = (t.ents.getD m ⟨"", "", false⟩).name then 0
          else (evictLoop t m).1 x
        else (evictLoop t m).1) = _
    rw [ih]
    rfl

theorem evictLoop_snd_eq_clearLoop (t : headerFieldTable) :
    ∀ m : Nat, (evictLoop t m).2 =
      clearLoop (fun f => (f.name, f.value)) t.ents t.evictCount t.byNameValue m := by
  intro m
  induction m with
  | zero => rfl
  | succ m ih =>
    show (if (evictLoop t m).2 ((t.ents.getD m ⟨"", "", false⟩).name,
            (t.ents.getD m ⟨"", "", false⟩).value) = t.evictCount + m + 1
        then fun p => if p = ((t.ents.getD m ⟨"", "", false⟩).name,
            (t.ents.getD m ⟨"", "", false⟩).value) then 0
          else (evictLoop t m).2 p
        else (evictLoop t m).2) = _
    rw [ih]
    rfl

theorem canonicalMaps_empty : canonicalMaps emptyTable :=
  ⟨fun _ => rfl, fun _ => rfl⟩

theorem canonicalMaps_add (t : headerFieldTable) (f : HeaderField)
    (hcan : canonicalMaps t) : canonicalMaps (t.addEntry f) := by
  obtain ⟨hN, hNV⟩ := hcan
  have hlen : t.len = t.ents.length := rfl
  constructor
  · intro x
    show (if x = f.name then t.len + t.evictCount + 1 else t.byName x) =
      newestIdAux t.evictCount (fun g => decide (g.name = x)) (t.ents ++ [f])
    rw [newestIdAux_snoc]
    by_cases hx : x = f.name
    · rw [if_pos hx, if_pos (by simp [hx])]
      omega
    · rw [if_neg hx, if_neg (by simpa using fun hcon => hx hcon.symm), hN x]
  · intro pr
    show (if pr = (f.name, f.value) then t.len + t.evictCount + 1 else t.byNameValue pr) =
      newestIdAux t.evictCount (fun g => decide ((g.name, g.value) = pr)) (t.ents ++ [f])
    rw [newestIdAux_snoc]
    by_cases hpr : pr = (f.name, f.value)
    · rw [if_pos hpr, if_pos (by simp [hpr])]
      omega
    · rw [if_neg hpr, if_neg (by simpa using fun hcon => hpr hcon.symm), hNV pr]

theorem canonicalMaps_evict (t t' : headerFieldTable) (n : Int)
    (hcan : canonicalMaps t) (heq : t.evictOldest n = some t') :
    canonicalMaps t' := by
  obtain ⟨hN, hNV⟩ := hcan
  simp only [headerFieldTable.evictOldest] at heq
  split_ifs at heq with h1 h2 h3
  have hm : n.toNat ≤ t.ents.length := by
    have hlen : t.len = t.ents.length := rfl
    omega
  have ht' : t' =
      { ents := t.ents.drop n.toNat,
        evictCount := t.evictCount + n.toNat,
        byName := (evictLoop t n.toNat).1,
        byNameValue := (evictLoop t n.toNat).2 } := (Option.some.inj heq).symm
  subst ht'
  constructor
  · intro x
    calc (evictLoop t n.toNat).1 x
        = clearLoop (fun f => f.name) t.ents t.evictCount t.byName n.toNat x := by
          rw [evictLoop_fst_eq_clearLoop]
      _ = (if newestIdAux t.evictCount (fun f => decide (f.name = x)) t.ents
              ≤ t.evictCount + n.toNat then 0
           else newestIdAux t.evictCount (fun f => decide (f.name = x)) t.ents) :=
          clearLoop_eq (fun f => f.name) t.ents t.evictCount t.byName hN n.toNat hm x
      _ = newestIdAux (t.evictCount + n.toNat) (fun f => decide (f.name = x))
            (t.ents.drop n.toNat) :=
          (newestIdAux_drop (fun f => decide (f.name = x)) n.toNat t.ents t.evictCount hm).symm
  · intro pr
    calc (evictLoop t n.toNat).2 pr
        = clearLoop (fun f => (f.name, f.value)) t.ents t.evictCount t.byNameValue
            n.toNat pr := by
          rw [evictLoop_snd_eq_clearLoop]
      _ = (if newestIdAux t.evictCount (fun f => decide ((f.name, f.value) = pr)) t.ents
              ≤ t.evictCount + n.toNat then 0
           else newestIdAux t.evictCount (fun f => decide ((f.name, f.value) = pr)) t.ents) :=
          clearLoop_eq (fun f => (f.name, f.value)) t.ents t.evictCount t.byNameValue
            hNV n.toNat hm pr
      _ = newestIdAux (t.evictCount + n.toNat) (fun f => decide ((f.name, f.value) = pr))
            (t.ents.drop n.toNat) :=
          (newestIdAux_drop (fun f => decide ((f.name, f.value) = pr)) n.toNat t.ents
            t.evictCount hm).symm

theorem reachable_canonicalMaps (t : headerFieldTable) (h : Reachable t) :
    canonicalMaps t := by
  induction h with
  | base => exact canonicalMaps_empty
  | add t f _ ih => exact canonicalMaps_add t f ih
  | evict t t' n _ heq ih => exact canonicalMaps_evict t t' n ih heq

/-- Claim C9: in every table state reachable from an initialized empty table
by `addEntry` and successful `evictOldest` calls, every nonzero id stored in
`byName` or `byNameValue` is live: `evictCount < id ≤ evictCount + len(entries)`
and it names an entry still present in `entries` (with the matching name,
resp. name/value pair); consequently a dynamic-table `search` never reaches
the `idToIndex` panic, and whenever it reports a match the returned index
lies in `[1, len(entries)]`. -/
theorem C9_live_ids (t : headerFieldTable) (h : Reachable t) :
    (∀ x : String, t.byName x ≠ 0 →
      t.evictCount < t.byName x ∧ t.byName x ≤ t.evictCount + t.len ∧
        (t.ents.getD (t.byName x - t.evictCount - 1) ⟨"", "", false⟩).name = x) ∧
    (∀ pr : String × String, t.byNameValue pr ≠ 0 →
      t.evictCount < t.byNameValue pr ∧ t.byNameValue pr ≤ t.evictCount + t.len ∧
        ((t.ents.getD (t.byNameValue pr - t.evictCount - 1) ⟨"", "", false⟩).name,
          (t.ents.getD (t.byNameValue pr - t.evictCount - 1) ⟨"", "", false⟩).value)
          = pr) ∧
    (∀ f : HeaderField, t.search false f ≠ none) ∧
    (∀ (f : HeaderField) (i : Nat) (b : Bool),
      t.search false f = some (i, b) → i ≠ 0 → 1 ≤ i ∧ i ≤ t.len) := by
  obtain ⟨hN, hNV⟩ := reachable_canonicalMaps t h
  have hlen : t.len = t.ents.length := rfl
  have keyN : ∀ x : String, t.byName x ≠ 0 →
      t.evictCount < t.byName x ∧ t.byName x ≤ t.evictCount + t.len ∧
        (t.ents.getD (t.byName x - t.evictCount - 1) ⟨"", "", false⟩).name = x := by
    intro x hx
    rw [hN x] at hx
    rcases newestIdAux_bounds (fun f => decide (f.name = x)) t.ents t.evictCount
      with h0 | hb
    · exact absurd h0 hx
    · obtain ⟨k, hk, hval, hp⟩ :=
        newestIdAux_spec (fun f => decide (f.name = x)) t.ents t.evictCount hx
      rw [hN x]
      refine ⟨hb.1, by omega, ?_⟩
      have hidx : newestIdAux t.evictCount (fun f => decide (f.name = x)) t.ents
          - t.evictCount - 1 = k := by omega
      rw [hidx]
      exact of_decide_eq_true hp
  have keyNV : ∀ pr : String × String, t.byNameValue pr ≠ 0 →
      t.evictCount < t.byNameValue pr ∧ t.byNameValue pr ≤ t.evictCount + t.len ∧
        ((t.ents.getD (t.byNameValue pr - t.evictCount - 1) ⟨"", "", false⟩).name,
          (t.ents.getD (t.byNameValue pr - t.evictCount - 1) ⟨"", "", false⟩).value)
          = pr := by
    intro pr hx
    rw [hNV pr] at hx
    rcases newestIdAux_bounds (fun f => decide ((f.name, f.value) = pr)) t.ents
      t.evictCount with h0 | hb
    · exact absurd h0 hx
    · obtain ⟨k, hk, hval, hp⟩ :=
        newestIdAux_spec (fun f => decide ((f.name, f.value) = pr)) t.ents t.evictCount hx
      rw [hNV pr]
      refine ⟨hb.1, by omega, ?_⟩
      have hidx : newestIdAux t.evictCount (fun f => decide ((f.name, f.value) = pr))
          t.ents - t.evictCount - 1 = k := by omega
      rw [hidx]
      exact of_decide_eq_true hp
  have hs1 : ∀ f : HeaderField, t.search false f ≠ none := by
    intro f
    by_cases hc1 : f.sensitive = false ∧ t.byNameValue (f.name, f.value) ≠ 0
    · rw [search_nameValue t false f hc1.1 hc1.2,
        idToIndex_dyn t _ (keyNV (f.name, f.value) hc1.2).1]
      simp
    · by_cases hc2 : t.byName f.name ≠ 0
      · rw [search_nameOnly t false f hc1 hc2, idToIndex_dyn t _ (keyN f.name hc2).1]
        simp
      · rw [search_none t false f hc1 hc2]
        simp
  have hs2 : ∀ (f : HeaderField) (i : Nat) (b : Bool),
      t.search false f = some (i, b) → i ≠ 0 → 1 ≤ i ∧ i ≤ t.len := by
    intro f i b hs hi
    by_cases hc1 : f.sensitive = false ∧ t.byNameValue (f.name, f.value) ≠ 0
    · obtain ⟨hlt, hle, _⟩ := keyNV (f.name, f.value) hc1.2
      rw [search_nameValue t false f hc1.1 hc1.2, idToIndex_dyn t _ hlt] at hs
      simp only [Option.map_some', Option.some.injEq, Prod.mk.injEq] at hs
      obtain ⟨hs1', _⟩ := hs
      omega
    · by_cases hc2 : t.byName f.name ≠ 0
      · obtain ⟨hlt, hle, _⟩ := keyN f.name hc2
        rw [search_nameOnly t false f hc1 hc2, idToIndex_dyn t _ hlt] at hs
        simp only [Option.map_some', Option.some.injEq, Prod.mk.injEq] at hs
        obtain ⟨hs1', _⟩ := hs
        omega
      · rw [search_none t false f hc1 hc2] at hs
        simp only [Option.some.injEq, Prod.mk.injEq] at hs
        exact absurd hs.1.symm hi
  exact ⟨keyN, keyNV, hs1, hs2⟩

/-- Witness for C9 at a concrete reachable table (one entry, reached by a
single `addEntry` from the initialized empty table). -/
theorem C9_live_ids_witness :
    (∀ x : String, oneEntryTable.byName x ≠ 0 →
      oneEntryTable.evictCount < oneEntryTable.byName x ∧
        oneEntryTable.byName x ≤ oneEntryTable.evictCount + oneEntryTable.len ∧
        (oneEntryTable.ents.getD (oneEntryTable.byName x - oneEntryTable.evictCount - 1)
          ⟨"", "", false⟩).name = x) ∧
    (∀ pr : String × String, oneEntryTable.byNameValue pr ≠ 0 →
      oneEntryTable.evictCount < oneEntryTable.byNameValue pr ∧
        oneEntryTable.byNameValue pr ≤ oneEntryTable.evictCount + oneEntryTable.len ∧
        ((oneEntryTable.ents.getD
            (oneEntryTable.byNameValue pr - oneEntryTable.evictCount - 1)
            ⟨"", "", false⟩).name,
          (oneEntryTable.ents.getD
            (oneEntryTable.byNameValue pr - oneEntryTable.evictCount - 1)
            ⟨"", "", false⟩).value) = pr) ∧
    (∀ f : HeaderField, oneEntryTable.search false f ≠ none) ∧
    (∀ (f : HeaderField) (i : Nat) (b : Bool),
      oneEntryTable.search false f = some (i, b) → i ≠ 0 →
        1 ≤ i ∧ i ≤ oneEntryTable.len) :=
  C9_live_ids oneEntryTable (Reachable.add emptyTable (pair "a" "b") Reachable.base)

/-- Claim C5: in any reachable table (in particular one where an older entry
named `x` has been evicted), if the entry at position `k` (oldest-first) has
name `x` and no newer entry has name `x`, a name-only search for `x` (the
query is marked sensitive so the name+value probe is skipped) returns
exactly that surviving entry's current index `len(entries) - k`, never a
stale index: the conditional clear in `evictOldest` removes a binding only
when it still holds the evicted entry's own id. -/
theorem C5_newest_name_wins (t : headerFieldTable) (h : Reachable t)
    (x v : String) (k : Nat) (hk : k < t.len)
    (hname : (t.ents.getD k ⟨"", "", false⟩).name = x)
    (hnewest : ∀ g ∈ t.ents.drop (k + 1), g.name ≠ x) :
    t.search false ⟨x, v, true⟩ = some (t.len - k, false) := by
  obtain ⟨hN, _⟩ := reachable_canonicalMaps t h
  have hlen : t.len = t.ents.length := rfl
  have hval : newestIdAux t.evictCount (fun f => decide (f.name = x)) t.ents
      = t.evictCount + k + 1 :=
    newestIdAux_eq_of (fun f => decide (f.name = x)) t.ents t.evictCount k
      (by omega)
      (by show decide ((t.ents.getD k ⟨"", "", false⟩).name = x) = true
          rw [hname]
          simp)
      (fun g hg => decide_eq_false (hnewest g hg))
  have hbn : t.byName x = t.evictCount + k + 1 := by rw [hN x, hval]
  rw [search_nameOnly t false ⟨x, v, true⟩ (by simp) (show t.byName x ≠ 0 by omega)]
  show (t.idToIndex false (t.byName x)).map (fun i => (i, false))
    = some (t.len - k, false)
  rw [hbn, idToIndex_dyn t _ (by omega)]
  have hidx : t.evictCount + k + 1 - t.evictCount - 1 = k := by omega
  rw [hidx]
  rfl

/-- Witness for C5 at a concrete input: of two entries named "x", the newer
one (position 1) wins the name-only search, at index `len - 1 = 1`. -/
theorem C5_newest_name_wins_witness :
    twoSameNameTable.search false ⟨"x", "zz", true⟩
      = some (twoSameNameTable.len - 1, false) :=
  C5_newest_name_wins twoSameNameTable
    (Reachable.add (emptyTable.addEntry (pair "x" "1")) (pair "x" "2")
      (Reachable.add emptyTable (pair "x" "1") Reachable.base))
    "x" "zz" 1 (by decide) (by decide) (by decide)
